import Mathlib

/-!
Verification of the `SimpleRanker` executor (`src/simpleranker.py`).

The ranker aggregates the matches found on a document and on its immediate
chunks into a single deduplicated, sorted list of matches on the document,
grouping by source key (`match.parent_id or match.id`) and reducing each
group according to one of four policies (`min`, `max`, `mean_min`,
`mean_max`).

Embedding notes:
* docarray `Document` objects are modelled by the inductive `SR.Doc`, keeping
  exactly the fields the ranker reads or writes (`id`, `parent_id`,
  `granularity`, `tags`, `scores`, `chunks`, `matches`).  `parent_id` uses
  the empty string for docarray's missing/`None` value (docarray's default
  machinery turns an unset or `None` `parent_id` into `''` on read, and
  Python's `or` treats both as falsy).
* `Document.scores` in docarray 0.x is lazily initialised to a
  `defaultdict(NamedScore)`, so reading a missing metric key yields a fresh
  `NamedScore` whose value is `0.0`; `SR.Doc.lookupScore` models exactly
  that.  Float score values are modelled as rationals.
* Python's `sorted` is a stable sort by a key function; it is modelled by
  `List.insertionSort` (stable) with the corresponding total preorder.
  `itertools.groupby` splits a list into maximal runs of consecutive
  elements with equal key; it is modelled by `SR.groupRuns`.
* `Document.copy_from` produces a decoupled copy with identical field
  values; in a functional model the promoted match therefore starts out
  simply as the representative itself.
-/

namespace SR

/-- docarray `NamedScore`, restricted to the fields the ranker touches:
the numeric `value` and the provenance tag `op_name`. -/
structure NamedScore where
  value : ℚ
  op_name : String
deriving DecidableEq, Repr

/-- docarray `Document`, restricted to the fields the ranker reads or
writes.  `chunks` and `matches` are nested documents. -/
inductive Doc where
  | mk (id : String) (parent_id : String) (granularity : Nat)
      (tags : List (String × String)) (scores : List (String × NamedScore))
      (chunks : List Doc) (matchList : List Doc)

def Doc.id : Doc → String
  | .mk i _ _ _ _ _ _ => i

def Doc.parent_id : Doc → String
  | .mk _ p _ _ _ _ _ => p

def Doc.granularity : Doc → Nat
  | .mk _ _ g _ _ _ _ => g

def Doc.tags : Doc → List (String × String)
  | .mk _ _ _ t _ _ _ => t

def Doc.scores : Doc → List (String × NamedScore)
  | .mk _ _ _ _ s _ _ => s

def Doc.chunks : Doc → List Doc
  | .mk _ _ _ _ _ c _ => c

def Doc.matchList : Doc → List Doc
  | .mk _ _ _ _ _ _ m => m

/-- Replace the `matches` list of a document (the only field
`SimpleRanker.rank` assigns on a target document). -/
def Doc.withMatches : Doc → List Doc → Doc
  | .mk i p g t s c _, m => .mk i p g t s c m

/-- Replace the `chunks` list of a document (used to express the in-place
update of chunk-level targets under the `@c` traversal path). -/
def Doc.withChunks : Doc → List Doc → Doc
  | .mk i p g t s _ m, c => .mk i p g t s c m

/-- The identity rewrite applied to a promoted match whose representative
has `granularity > 0`: `id := parent_id; granularity := 0;
parent_id := None` (lines 79-82 of `simpleranker.py`). -/
def Doc.promoteIdentity : Doc → Doc
  | .mk _ p _ t s c m => .mk p "" 0 t s c m

/-- docarray score lookup.  `Document.scores` behaves as a
`defaultdict(NamedScore)`: a missing key yields a default `NamedScore`
with `value = 0.0` and empty `op_name` instead of raising. -/
def Doc.lookupScore (metric : String) (d : Doc) : NamedScore :=
  match d.scores.lookup metric with
  | some ns => ns
  | none => ⟨0, ""⟩

/-- The numeric value the ranker reads as `m.scores[metric].value`. -/
def scoreVal (metric : String) (d : Doc) : ℚ :=
  (d.lookupScore metric).value

/-- Assignment into the scores mapping: replace the entry for `metric` if
present (keeping its position, as a Python dict does), else append. -/
def setScoreEntry : List (String × NamedScore) → String → NamedScore →
    List (String × NamedScore)
  | [], k, v => [(k, v)]
  | (k', v') :: rest, k, v =>
    if k' = k then (k, v) :: rest else (k', v') :: setScoreEntry rest k v

/-- `match.scores[metric] = ns` on a document. -/
def Doc.withScore (d : Doc) (metric : String) (ns : NamedScore) : Doc :=
  match d with
  | .mk i p g t s c m => .mk i p g t (setScoreEntry s metric ns) c m

/-- The grouping key `d.parent_id or d.id` (line 58): Python's `or` falls
through to `id` exactly when `parent_id` is falsy (empty/missing). -/
def sourceKey (d : Doc) : String :=
  if d.parent_id = "" then d.id else d.parent_id

/-- The four accepted ranking policies. -/
inductive Ranking where
  | min | max | mean_min | mean_max
deriving DecidableEq, Repr

/-- The string form of a policy, as stored into `op_name`. -/
def Ranking.name : Ranking → String
  | .min => "min"
  | .max => "max"
  | .mean_min => "mean_min"
  | .mean_max => "mean_max"

/-- The two traversal selectors exercised by the repository (`@r` selects
the root documents, `@c` their immediate chunks). -/
inductive Selector where
  | root | chunk
deriving DecidableEq, Repr

/-- The membership test of the constructor's
`assert ranking in ['min', 'max', 'mean_min', 'mean_max']`. -/
def parseRanking (s : String) : Option Ranking :=
  if s = "min" then some .min
  else if s = "max" then some .max
  else if s = "mean_min" then some .mean_min
  else if s = "mean_max" then some .mean_max
  else none

/-- The configuration held by a successfully constructed `SimpleRanker`. -/
structure SimpleRanker where
  metric : String
  ranking : Ranking
  traversal_paths : Selector
deriving DecidableEq, Repr

/-- `SimpleRanker.__init__`: construction succeeds only when `ranking` is
one of the four accepted strings; any other value fails the assertion at
construction time. -/
def mkSimpleRanker (metric : String) (ranking : String)
    (traversal_paths : Selector) : Option SimpleRanker :=
  (parseRanking ranking).map fun r => ⟨metric, r, traversal_paths⟩

/-- Lexicographic comparison of character lists by code point, the order
Python uses when sorting the grouping keys (strings). -/
def charsLe : List Char → List Char → Bool
  | [], _ => true
  | _ :: _, [] => false
  | a :: as, b :: bs => if a < b then true else if b < a then false else charsLe as bs

/-- Lexicographic order on strings (Python string comparison). -/
def strLe (a b : String) : Prop := charsLe a.data b.data = true

instance : DecidableRel strLe := fun _ _ => inferInstanceAs (Decidable (_ = true))

/-- Sort key of line 58: compare candidate matches by source key. -/
def keyLE (a b : Doc) : Prop := strLe (sourceKey a) (sourceKey b)

instance : DecidableRel keyLE := fun _ _ => inferInstanceAs (Decidable (strLe _ _))

/-- Ascending comparison by `m.scores[metric].value` (lines 66, 92). -/
def scoreLE (metric : String) (a b : Doc) : Prop :=
  scoreVal metric a ≤ scoreVal metric b

instance (metric : String) : DecidableRel (scoreLE metric) := fun _ _ =>
  inferInstanceAs (Decidable (_ ≤ _))

/-- Descending comparison, Python's `key=lambda m: -value` (lines 72, 96). -/
def scoreGE (metric : String) (a b : Doc) : Prop :=
  scoreVal metric b ≤ scoreVal metric a

instance (metric : String) : DecidableRel (scoreGE metric) := fun _ _ =>
  inferInstanceAs (Decidable (_ ≤ _))

/-- `itertools.groupby`: split a list into maximal runs of consecutive
elements sharing a key. -/
def groupRuns {α : Type} (key : α → String) : List α → List (List α)
  | [] => []
  | x :: xs =>
    match groupRuns key xs with
    | [] => [[x]]
    | [] :: gs => [x] :: gs
    | (y :: g) :: gs =>
      if key x = key y then (x :: y :: g) :: gs
      else [x] :: (y :: g) :: gs

/-- A default document (groups produced by `groupRuns` are never empty, so
this default is never actually selected). -/
def emptyDoc : Doc := .mk "" "" 0 [] [] [] []

/-- The per-group body of the loop in lines 63-88: re-sort the group for
`min`/`max`, take element 0 as representative, copy it, rewrite its
identity if it is a chunk-level match, and overwrite its score with the
group mean for the mean policies. -/
def promote (metric : String) (rk : Ranking) (g : List Doc) : Doc :=
  let g' : List Doc :=
    match rk with
    | .min => List.insertionSort (scoreLE metric) g
    | .max => List.insertionSort (scoreGE metric) g
    | .mean_min | .mean_max => g
  let rep := g'.headD emptyDoc
  let m := if 0 < rep.granularity then rep.promoteIdentity else rep
  match rk with
  | .mean_min | .mean_max =>
    m.withScore metric
      ⟨((g.map (scoreVal metric)).sum) / (g.length : ℚ), rk.name⟩
  | .min | .max => m

/-- Lines 52-56: the flat candidate pool — the document's own matches
followed by the matches of each immediate chunk, in order. -/
def collectPool (d : Doc) : List Doc :=
  d.chunks.foldl (fun acc c => acc ++ c.matchList) d.matchList

/-- Lines 57-96 applied to a candidate pool: sort by source key, group
consecutive equal keys, promote each group, and sort the results by score
(ascending for `min`/`mean_min`, descending for `max`/`mean_max`). -/
def aggregate (metric : String) (rk : Ranking) (pool : List Doc) : List Doc :=
  let sortedPool := List.insertionSort keyLE pool
  let groups := groupRuns sourceKey sortedPool
  let out := groups.map (promote metric rk)
  match rk with
  | .min | .mean_min => List.insertionSort (scoreLE metric) out
  | .max | .mean_max => List.insertionSort (scoreGE metric) out

/-- The whole per-target-document body of `rank`: replace `d.matches` by
the aggregation of its candidate pool. -/
def rankDoc (metric : String) (rk : Ranking) (d : Doc) : Doc :=
  d.withMatches (aggregate metric rk (collectPool d))

/-- `docs[traversal_paths]`: the documents selected as targets. -/
def selectDocs : Selector → List Doc → List Doc
  | .root, docs => docs
  | .chunk, docs => (docs.map Doc.chunks).flatten

/-- `SimpleRanker.rank`: apply the per-document aggregation to every
selected target document, in place.  `params` models
`parameters.get('traversal_paths', self.traversal_paths)`. -/
def SimpleRanker.rank (r : SimpleRanker) (docs : List Doc)
    (params : Option Selector) : List Doc :=
  match params.getD r.traversal_paths with
  | .root => docs.map (rankDoc r.metric r.ranking)
  | .chunk => docs.map fun d => d.withChunks (d.chunks.map (rankDoc r.metric r.ranking))

end SR

namespace SR

theorem charsLe_refl (l : List Char) : charsLe l l = true := by
  induction l with
  | nil => rfl
  | cons a as ih => simp [charsLe, lt_irrefl, ih]

theorem charsLe_total (l₁ l₂ : List Char) : charsLe l₁ l₂ = true ∨ charsLe l₂ l₁ = true := by
  induction l₁ generalizing l₂ with
  | nil => left; rfl
  | cons a as ih =>
    cases l₂ with
    | nil => right; rfl
    | cons b bs =>
      rcases lt_trichotomy a b with h | h | h
      · left; simp [charsLe, h]
      · subst h
        rcases ih bs with h' | h'
        · left; simp [charsLe, lt_irrefl, h']
        · right; simp [charsLe, lt_irrefl, h']
      · right; simp [charsLe, h]

theorem charsLe_trans {l₁ l₂ l₃ : List Char} (h₁ : charsLe l₁ l₂ = true)
    (h₂ : charsLe l₂ l₃ = true) : charsLe l₁ l₃ = true := by
  induction l₁ generalizing l₂ l₃ with
  | nil => rfl
  | cons a as ih =>
    cases l₂ with
    | nil => simp [charsLe] at h₁
    | cons b bs =>
      cases l₃ with
      | nil => simp [charsLe] at h₂
      | cons c cs =>
        by_cases hab : a < b
        · by_cases hbc : b < c
          · simp [charsLe, lt_trans hab hbc]
          · by_cases hcb : c < b
            · simp [charsLe, hbc, hcb] at h₂
            · have hbc' : b = c := le_antisymm (not_lt.mp hcb) (not_lt.mp hbc)
              subst hbc'
              simp [charsLe, hab]
        · by_cases hba : b < a
          · simp [charsLe, hab, hba] at h₁
          · have hab' : a = b := le_antisymm (not_lt.mp hba) (not_lt.mp hab)
            subst hab'
            simp only [charsLe, lt_irrefl, if_false] at h₁
            by_cases hac : a < c
            · simp [charsLe, hac]
            · by_cases hca : c < a
              · simp [charsLe, hac, hca] at h₂
              · have hac' : a = c := le_antisymm (not_lt.mp hca) (not_lt.mp hac)
                subst hac'
                simp only [charsLe, lt_irrefl, if_false] at h₂ ⊢
                exact ih h₁ h₂

theorem charsLe_antisymm {l₁ l₂ : List Char} (h₁ : charsLe l₁ l₂ = true)
    (h₂ : charsLe l₂ l₁ = true) : l₁ = l₂ := by
  induction l₁ generalizing l₂ with
  | nil =>
    cases l₂ with
    | nil => rfl
    | cons b bs => simp [charsLe] at h₂
  | cons a as ih =>
    cases l₂ with
    | nil => simp [charsLe] at h₁
    | cons b bs =>
      by_cases hab : a < b
      · simp [charsLe, hab, lt_asymm hab] at h₂
      · by_cases hba : b < a
        · simp [charsLe, hab, hba] at h₁
        · have hab' : a = b := le_antisymm (not_lt.mp hba) (not_lt.mp hab)
          subst hab'
          simp only [charsLe, lt_irrefl, if_false] at h₁ h₂
          rw [ih h₁ h₂]

theorem strLe_refl (s : String) : strLe s s := charsLe_refl _

theorem strLe_total (a b : String) : strLe a b ∨ strLe b a := charsLe_total _ _

theorem strLe_trans {a b c : String} : strLe a b → strLe b c → strLe a c :=
  charsLe_trans

theorem strLe_antisymm {a b : String} (h₁ : strLe a b) (h₂ : strLe b a) : a = b := by
  cases a with
  | mk d₁ =>
    cases b with
    | mk d₂ => exact congrArg String.mk (charsLe_antisymm h₁ h₂)

instance : IsTotal Doc keyLE := ⟨fun _ _ => strLe_total _ _⟩

instance : IsTrans Doc keyLE := ⟨fun _ _ _ => strLe_trans⟩

instance (metric : String) : IsTotal Doc (scoreLE metric) := ⟨fun _ _ => le_total _ _⟩

instance (metric : String) : IsTrans Doc (scoreLE metric) := ⟨fun _ _ _ h h' => le_trans h h'⟩

instance (metric : String) : IsTotal Doc (scoreGE metric) := ⟨fun _ _ => le_total _ _⟩

instance (metric : String) : IsTrans Doc (scoreGE metric) := ⟨fun _ _ _ h h' => le_trans h' h⟩

@[simp] theorem withMatches_matchList (d : Doc) (m : List Doc) :
    (d.withMatches m).matchList = m := by cases d; rfl

@[simp] theorem withMatches_id (d : Doc) (m : List Doc) :
    (d.withMatches m).id = d.id := by cases d; rfl

@[simp] theorem withMatches_parent_id (d : Doc) (m : List Doc) :
    (d.withMatches m).parent_id = d.parent_id := by cases d; rfl

@[simp] theorem withMatches_granularity (d : Doc) (m : List Doc) :
    (d.withMatches m).granularity = d.granularity := by cases d; rfl

@[simp] theorem withMatches_tags (d : Doc) (m : List Doc) :
    (d.withMatches m).tags = d.tags := by cases d; rfl

@[simp] theorem withMatches_scores (d : Doc) (m : List Doc) :
    (d.withMatches m).scores = d.scores := by cases d; rfl

@[simp] theorem withMatches_chunks (d : Doc) (m : List Doc) :
    (d.withMatches m).chunks = d.chunks := by cases d; rfl

@[simp] theorem withChunks_chunks (d : Doc) (c : List Doc) :
    (d.withChunks c).chunks = c := by cases d; rfl

@[simp] theorem withChunks_matchList (d : Doc) (c : List Doc) :
    (d.withChunks c).matchList = d.matchList := by cases d; rfl

@[simp] theorem withChunks_id (d : Doc) (c : List Doc) :
    (d.withChunks c).id = d.id := by cases d; rfl

@[simp] theorem withChunks_parent_id (d : Doc) (c : List Doc) :
    (d.withChunks c).parent_id = d.parent_id := by cases d; rfl

@[simp] theorem withChunks_granularity (d : Doc) (c : List Doc) :
    (d.withChunks c).granularity = d.granularity := by cases d; rfl

@[simp] theorem withChunks_tags (d : Doc) (c : List Doc) :
    (d.withChunks c).tags = d.tags := by cases d; rfl

@[simp] theorem withChunks_scores (d : Doc) (c : List Doc) :
    (d.withChunks c).scores = d.scores := by cases d; rfl

@[simp] theorem promoteIdentity_id (d : Doc) :
    d.promoteIdentity.id = d.parent_id := by cases d; rfl

@[simp] theorem promoteIdentity_parent_id (d : Doc) :
    d.promoteIdentity.parent_id = "" := by cases d; rfl

@[simp] theorem promoteIdentity_granularity (d : Doc) :
    d.promoteIdentity.granularity = 0 := by cases d; rfl

@[simp] theorem promoteIdentity_scores (d : Doc) :
    d.promoteIdentity.scores = d.scores := by cases d; rfl

@[simp] theorem promoteIdentity_tags (d : Doc) :
    d.promoteIdentity.tags = d.tags := by cases d; rfl

@[simp] theorem withScore_id (d : Doc) (k : String) (ns : NamedScore) :
    (d.withScore k ns).id = d.id := by cases d; rfl

@[simp] theorem withScore_parent_id (d : Doc) (k : String) (ns : NamedScore) :
    (d.withScore k ns).parent_id = d.parent_id := by cases d; rfl

@[simp] theorem withScore_granularity (d : Doc) (k : String) (ns : NamedScore) :
    (d.withScore k ns).granularity = d.granularity := by cases d; rfl

@[simp] theorem withScore_scores (d : Doc) (k : String) (ns : NamedScore) :
    (d.withScore k ns).scores = setScoreEntry d.scores k ns := by cases d; rfl

theorem lookup_setScoreEntry (s : List (String × NamedScore)) (k : String) (ns : NamedScore) :
    (setScoreEntry s k ns).lookup k = some ns := by
  induction s with
  | nil => simp [setScoreEntry, List.lookup]
  | cons e rest ih =>
    obtain ⟨k', v'⟩ := e
    by_cases h : k' = k
    · simp [setScoreEntry, h, List.lookup]
    · simp only [setScoreEntry, h, if_false, List.lookup]
      have : (k == k') = false := by
        simp [beq_iff_eq]
        exact fun he => h he.symm
      simp [this, ih]

theorem lookupScore_withScore (d : Doc) (k : String) (ns : NamedScore) :
    (d.withScore k ns).lookupScore k = ns := by
  simp [Doc.lookupScore, lookup_setScoreEntry]

theorem foldl_append_matchList (cs : List Doc) (init : List Doc) :
    cs.foldl (fun acc c => acc ++ c.matchList) init
      = init ++ (cs.map Doc.matchList).flatten := by
  induction cs generalizing init with
  | nil => simp
  | cons c cs ih => simp [List.foldl_cons, ih]

/-- The candidate pool is exactly the document's own matches followed by the
matches of its immediate chunks. -/
theorem collectPool_eq (d : Doc) :
    collectPool d = d.matchList ++ (d.chunks.map Doc.matchList).flatten :=
  foldl_append_matchList _ _

end SR

namespace SR

theorem groupRuns_flatten {α : Type} (key : α → String) (l : List α) :
    (groupRuns key l).flatten = l := by
  induction l with
  | nil => rfl
  | cons x xs ih =>
    rcases hg : groupRuns key xs with _ | ⟨g, gs⟩
    · rw [hg] at ih
      simp only [List.flatten_nil] at ih
      simp [groupRuns, hg, ← ih]
    · cases g with
      | nil =>
        rw [hg] at ih
        simp only [List.flatten_cons, List.nil_append] at ih
        simp [groupRuns, hg, ih]
      | cons y g0 =>
        rw [hg] at ih
        by_cases hk : key x = key y
        · simp only [groupRuns, hg, hk, if_true]
          simp only [List.flatten_cons] at ih ⊢
          simp [ih]
        · simp only [groupRuns, hg, hk, if_false]
          simp only [List.flatten_cons] at ih ⊢
          simp [ih]


theorem ne_nil_of_mem_groupRuns {α : Type} (key : α → String) :
    ∀ {l : List α} {g : List α}, g ∈ groupRuns key l → g ≠ [] := by
  intro l
  induction l with
  | nil => intro g hg; simp [groupRuns] at hg
  | cons x xs ih =>
    intro g hg
    rcases hgx : groupRuns key xs with _ | ⟨g', gs⟩
    · simp only [groupRuns, hgx, List.mem_singleton] at hg
      simp [hg]
    · cases g' with
      | nil =>
        simp only [groupRuns, hgx, List.mem_cons] at hg
        rcases hg with hg | hg
        · simp [hg]
        · exact ih (hgx ▸ List.mem_cons_of_mem _ hg)
      | cons y g0 =>
        by_cases hk : key x = key y
        · simp only [groupRuns, hgx, hk, if_true, List.mem_cons] at hg
          rcases hg with hg | hg
          · simp [hg]
          · exact ih (hgx ▸ List.mem_cons_of_mem _ hg)
        · simp only [groupRuns, hgx, hk, if_false, List.mem_cons] at hg
          rcases hg with hg | hg
          · simp [hg]
          · exact ih (hgx ▸ List.mem_cons.mpr hg)

theorem mem_of_mem_groupRuns {α : Type} {key : α → String} {l g : List α} {a : α}
    (hg : g ∈ groupRuns key l) (ha : a ∈ g) : a ∈ l := by
  rw [← groupRuns_flatten key l]
  exact List.mem_flatten.mpr ⟨g, hg, ha⟩

theorem key_eq_of_mem_groupRuns {α : Type} {key : α → String} :
    ∀ {l g : List α}, g ∈ groupRuns key l →
      ∀ {a b : α}, a ∈ g → b ∈ g → key a = key b := by
  intro l
  induction l with
  | nil => intro g hg; simp [groupRuns] at hg
  | cons x xs ih =>
    intro g hg a b ha hb
    rcases hgx : groupRuns key xs with _ | ⟨g', gs⟩
    · simp only [groupRuns, hgx, List.mem_singleton] at hg
      subst hg
      simp only [List.mem_singleton] at ha hb
      rw [ha, hb]
    · cases g' with
      | nil =>
        simp only [groupRuns, hgx, List.mem_cons] at hg
        rcases hg with hg | hg
        · subst hg
          simp only [List.mem_singleton] at ha hb
          rw [ha, hb]
        · exact ih (hgx ▸ List.mem_cons_of_mem _ hg) ha hb
      | cons y g0 =>
        by_cases hk : key x = key y
        · have hmem : ∀ {c : α}, c ∈ x :: y :: g0 → key c = key x := by
            intro c hc
            rcases List.mem_cons.mp hc with rfl | hc
            · rfl
            · have := ih (hgx ▸ List.mem_cons_self _ _) hc (List.mem_cons_self _ _)
              rw [this, ← hk]
          simp only [groupRuns, hgx, hk, if_true, List.mem_cons] at hg
          rcases hg with hg | hg
          · subst hg
            rw [hmem ha, hmem hb]
          · exact ih (hgx ▸ List.mem_cons_of_mem _ hg) ha hb
        · simp only [groupRuns, hgx, hk, if_false, List.mem_cons] at hg
          rcases hg with hg | hg
          · subst hg
            simp only [List.mem_singleton] at ha hb
            rw [ha, hb]
          · exact ih (hgx ▸ List.mem_cons.mpr hg) ha hb

end SR

namespace SR

theorem key_ne_of_groups {α : Type} {key : α → String} {x y : α} {g0 xs : List α}
    {gs : List (List α)}
    (hx : ∀ a ∈ xs, strLe (key x) (key a))
    (hgx : groupRuns key xs = (y :: g0) :: gs)
    (hIH : ((y :: g0) :: gs).Pairwise
      (fun g h => ∀ a ∈ g, ∀ b ∈ h, key a ≠ key b ∧ strLe (key a) (key b)))
    (hk : key x ≠ key y) {b : α} (hb : b ∈ xs) : key x ≠ key b := by
  have hbf : b ∈ (groupRuns key xs).flatten := by rw [groupRuns_flatten]; exact hb
  obtain ⟨h, hh, hbh⟩ := List.mem_flatten.mp hbf
  rw [hgx] at hh
  rcases List.mem_cons.mp hh with rfl | hh
  · have hby : key b = key y :=
      key_eq_of_mem_groupRuns (hgx ▸ List.mem_cons_self _ _) hbh (List.mem_cons_self _ _)
    rw [hby]; exact hk
  · have hp := (List.rel_of_pairwise_cons hIH hh) y (List.mem_cons_self _ _) b hbh
    intro he
    have hxy : strLe (key x) (key y) :=
      hx y (mem_of_mem_groupRuns (hgx ▸ List.mem_cons_self _ _) (List.mem_cons_self _ _))
    exact hk (strLe_antisymm hxy (he ▸ hp.2))

theorem groupRuns_pairwise {α : Type} {key : α → String} :
    ∀ {l : List α}, l.Pairwise (fun a b => strLe (key a) (key b)) →
      (groupRuns key l).Pairwise
        (fun g h => ∀ a ∈ g, ∀ b ∈ h, key a ≠ key b ∧ strLe (key a) (key b)) := by
  intro l
  induction l with
  | nil => intro _; simp [groupRuns]
  | cons x xs ih =>
    intro hs
    have hx : ∀ a ∈ xs, strLe (key x) (key a) := fun _ ha => List.rel_of_pairwise_cons hs ha
    have hxs : xs.Pairwise (fun a b => strLe (key a) (key b)) := hs.of_cons
    rcases hgx : groupRuns key xs with _ | ⟨g', gs⟩
    · simp [groupRuns, hgx]
    · cases g' with
      | nil =>
        exact absurd rfl (ne_nil_of_mem_groupRuns key (hgx ▸ List.mem_cons_self _ _))
      | cons y g0 =>
        have hIH := ih hxs
        rw [hgx] at hIH
        have keyeq_head : ∀ {a : α}, a ∈ y :: g0 → key a = key y := fun {a} ha =>
          key_eq_of_mem_groupRuns (hgx ▸ List.mem_cons_self _ _) ha (List.mem_cons_self _ _)
        by_cases hk : key x = key y
        · simp only [groupRuns, hgx, hk, if_true]
          refine List.pairwise_cons.mpr ⟨?_, hIH.of_cons⟩
          intro h hh a ha b hb
          have hay : key a = key y := by
            rcases List.mem_cons.mp ha with rfl | ha'
            · exact hk
            · exact keyeq_head ha'
          have := (List.rel_of_pairwise_cons hIH hh) y (List.mem_cons_self _ _) b hb
          rw [hay]
          exact this
        · simp only [groupRuns, hgx, hk, if_false]
          refine List.pairwise_cons.mpr ⟨?_, hIH⟩
          intro h hh a ha b hb
          have hax : a = x := List.mem_singleton.mp ha
          subst hax
          have hbxs : b ∈ xs := mem_of_mem_groupRuns (hgx ▸ hh) hb
          exact ⟨key_ne_of_groups hx hgx hIH hk hbxs, hx b hbxs⟩

theorem groupRuns_eq_filter {α : Type} {key : α → String} :
    ∀ {l : List α}, l.Pairwise (fun a b => strLe (key a) (key b)) →
      ∀ {g : List α}, g ∈ groupRuns key l → ∀ {a : α}, a ∈ g →
        g = l.filter (fun b => key b == key a) := by
  intro l
  induction l with
  | nil => intro _ g hg; simp [groupRuns] at hg
  | cons x xs ih =>
    intro hs g hg a ha
    have hx : ∀ c ∈ xs, strLe (key x) (key c) := fun _ hc => List.rel_of_pairwise_cons hs hc
    have hxs : xs.Pairwise (fun a b => strLe (key a) (key b)) := hs.of_cons
    rcases hgx : groupRuns key xs with _ | ⟨g', gs⟩
    · have hxs_nil : xs = [] := by
        have := groupRuns_flatten key xs
        rw [hgx] at this
        simpa using this.symm
      simp only [groupRuns, hgx, List.mem_singleton] at hg
      subst hg
      have hax : a = x := List.mem_singleton.mp ha
      subst hax
      subst hxs_nil
      simp [List.filter]
    · cases g' with
      | nil =>
        exact absurd rfl (ne_nil_of_mem_groupRuns key (hgx ▸ List.mem_cons_self _ _))
      | cons y g0 =>
        have hIH := groupRuns_pairwise hxs
        rw [hgx] at hIH
        have keyeq_head : ∀ {c : α}, c ∈ y :: g0 → key c = key y := fun {c} hc =>
          key_eq_of_mem_groupRuns (hgx ▸ List.mem_cons_self _ _) hc (List.mem_cons_self _ _)
        by_cases hk : key x = key y
        · simp only [groupRuns, hgx, hk, if_true, List.mem_cons] at hg
          rcases hg with hg | hg
          · subst hg
            have hay : key a = key y := by
              rcases List.mem_cons.mp ha with rfl | ha'
              · exact hk
              · exact keyeq_head ha'
            have hfy : y :: g0 = xs.filter (fun b => key b == key y) :=
              ih hxs (hgx ▸ List.mem_cons_self _ _) (List.mem_cons_self _ _)
            rw [hay]
            rw [List.filter_cons_of_pos (by simp [hk])]
            rw [← hfy]
          · have hfg : g = xs.filter (fun b => key b == key a) :=
              ih hxs (hgx ▸ List.mem_cons_of_mem _ hg) ha
            have hne : key x ≠ key a := by
              have := (List.rel_of_pairwise_cons hIH hg) y (List.mem_cons_self _ _) a ha
              rw [hk]
              exact this.1
            rw [List.filter_cons_of_neg (by simp [hne])]
            exact hfg
        · simp only [groupRuns, hgx, hk, if_false, List.mem_cons] at hg
          rcases hg with hg | hg
          · subst hg
            have hax : a = x := List.mem_singleton.mp ha
            subst hax
            rw [List.filter_cons_of_pos (by simp)]
            have hnil : xs.filter (fun b => key b == key a) = [] := by
              rw [List.filter_eq_nil_iff]
              intro b hb
              simp only [beq_iff_eq]
              intro he
              exact key_ne_of_groups hx hgx hIH hk hb he.symm
            rw [hnil]
          · rcases hg with hg | hg
            · subst hg
              have hay : key a = key y := keyeq_head ha
              have hfy : y :: g0 = xs.filter (fun b => key b == key a) :=
                ih hxs (hgx ▸ List.mem_cons_self _ _) ha
              have hne : key x ≠ key a := by rw [hay]; exact hk
              rw [List.filter_cons_of_neg (by simp [hne])]
              exact hfy
            · have hfg : g = xs.filter (fun b => key b == key a) :=
                ih hxs (hgx ▸ List.mem_cons_of_mem _ hg) ha
              have hne : key x ≠ key a := by
                have hmem : a ∈ xs :=
                  mem_of_mem_groupRuns (hgx ▸ List.mem_cons_of_mem _ hg) ha
                exact key_ne_of_groups hx hgx hIH hk hmem
              rw [List.filter_cons_of_neg (by simp [hne])]
              exact hfg

end SR

namespace SR

theorem filter_insertionSort {α : Type} (r : α → α → Prop) [DecidableRel r] (p : α → Bool)
    (l : List α) (hp : (l.filter p).Pairwise r) :
    (List.insertionSort r l).filter p = l.filter p := by
  have hself : (l.filter p).filter p = l.filter p :=
    List.filter_eq_self.mpr (fun a ha => List.of_mem_filter ha)
  have hsub : List.Sublist (l.filter p) (List.insertionSort r l) :=
    List.sublist_insertionSort hp (List.filter_sublist l)
  have hsub2 : List.Sublist (l.filter p) ((List.insertionSort r l).filter p) := by
    have h2 := hsub.filter p
    rwa [hself] at h2
  have hlen : ((List.insertionSort r l).filter p).length = (l.filter p).length :=
    ((List.perm_insertionSort r l).filter p).length_eq
  exact (hsub2.eq_of_length hlen.symm).symm

theorem headD_insertionSort_le {r : Doc → Doc → Prop} [DecidableRel r] [IsTotal Doc r]
    [IsTrans Doc r] {g : List Doc} (hg : g ≠ []) :
    (List.insertionSort r g).headD emptyDoc ∈ g ∧
      ∀ b ∈ g, r ((List.insertionSort r g).headD emptyDoc) b := by
  rcases hs : List.insertionSort r g with _ | ⟨rep, t⟩
  · exfalso
    have hlen := (List.perm_insertionSort r g).length_eq
    rw [hs] at hlen
    simp only [List.length_nil] at hlen
    exact hg (List.eq_nil_of_length_eq_zero hlen.symm)
  · have hrep : rep ∈ g := by
      have hmem : rep ∈ List.insertionSort r g := by
        rw [hs]; exact List.mem_cons_self _ _
      exact (List.mem_insertionSort r).mp hmem
    refine ⟨by simp [hs, hrep], ?_⟩
    intro b hb
    have hbs : b ∈ rep :: t := by
      rw [← hs]; exact (List.mem_insertionSort r).mpr hb
    have hsorted := List.sorted_insertionSort r g
    rw [hs] at hsorted
    simp only [hs, List.headD_cons]
    rcases List.mem_cons.mp hbs with rfl | hbt
    · exact (total_of r b b).elim id id
    · exact List.rel_of_sorted_cons hsorted b hbt

theorem promote_spec_min (metric : String) {g : List Doc} (hg : g ≠ []) :
    ∃ rep ∈ g, (∀ b ∈ g, scoreVal metric rep ≤ scoreVal metric b) ∧
      promote metric .min g =
        (if 0 < rep.granularity then rep.promoteIdentity else rep) := by
  obtain ⟨hmem, hmin⟩ := headD_insertionSort_le (r := scoreLE metric) hg
  exact ⟨_, hmem, hmin, rfl⟩

theorem promote_spec_max (metric : String) {g : List Doc} (hg : g ≠ []) :
    ∃ rep ∈ g, (∀ b ∈ g, scoreVal metric b ≤ scoreVal metric rep) ∧
      promote metric .max g =
        (if 0 < rep.granularity then rep.promoteIdentity else rep) := by
  obtain ⟨hmem, hmax⟩ := headD_insertionSort_le (r := scoreGE metric) hg
  exact ⟨_, hmem, hmax, rfl⟩

theorem promote_spec_mean {metric : String} {rk : Ranking} {g : List Doc} (hg : g ≠ [])
    (hrk : rk = .mean_min ∨ rk = .mean_max) :
    ∃ rep ∈ g, promote metric rk g =
      (if 0 < rep.granularity then rep.promoteIdentity else rep).withScore metric
        ⟨((g.map (scoreVal metric)).sum) / (g.length : ℚ), rk.name⟩ := by
  rcases hg' : g with _ | ⟨a, t⟩
  · exact absurd hg' hg
  · rcases hrk with rfl | rfl
    · exact ⟨a, List.mem_cons_self _ _, rfl⟩
    · exact ⟨a, List.mem_cons_self _ _, rfl⟩

theorem granularity_if_promote (rep : Doc) :
    (if 0 < rep.granularity then rep.promoteIdentity else rep).granularity = 0 := by
  by_cases h : 0 < rep.granularity
  · simp [h]
  · simp [h, Nat.eq_zero_of_not_pos h]

@[simp] theorem sourceKey_withScore (d : Doc) (k : String) (ns : NamedScore) :
    sourceKey (d.withScore k ns) = sourceKey d := by
  simp [sourceKey]

theorem lookupScore_promoteIdentity (d : Doc) (k : String) :
    d.promoteIdentity.lookupScore k = d.lookupScore k := by
  simp [Doc.lookupScore]

theorem sourceKey_if_promote {rep : Doc} (hH : 0 < rep.granularity → rep.parent_id ≠ "") :
    sourceKey (if 0 < rep.granularity then rep.promoteIdentity else rep) = sourceKey rep := by
  by_cases h : 0 < rep.granularity
  · simp only [h, if_true, sourceKey, promoteIdentity_parent_id, promoteIdentity_id,
      if_pos rfl]
    rw [if_neg (hH h)]
  · simp [h]

theorem promote_granularity (metric : String) (rk : Ranking) (g : List Doc) :
    (promote metric rk g).granularity = 0 := by
  cases rk with
  | min => exact granularity_if_promote _
  | max => exact granularity_if_promote _
  | mean_min =>
    show (Doc.withScore _ _ _).granularity = 0
    rw [withScore_granularity]
    exact granularity_if_promote _
  | mean_max =>
    show (Doc.withScore _ _ _).granularity = 0
    rw [withScore_granularity]
    exact granularity_if_promote _

theorem sourceKey_promote (metric : String) (rk : Ranking) {g : List Doc} (hg : g ≠ [])
    (hH : ∀ m ∈ g, 0 < m.granularity → m.parent_id ≠ "") :
    ∃ rep ∈ g, sourceKey (promote metric rk g) = sourceKey rep := by
  cases rk with
  | min =>
    obtain ⟨rep, hmem, _, heq⟩ := promote_spec_min metric hg
    exact ⟨rep, hmem, heq ▸ sourceKey_if_promote (hH rep hmem)⟩
  | max =>
    obtain ⟨rep, hmem, _, heq⟩ := promote_spec_max metric hg
    exact ⟨rep, hmem, heq ▸ sourceKey_if_promote (hH rep hmem)⟩
  | mean_min =>
    obtain ⟨rep, hmem, heq⟩ := promote_spec_mean hg (Or.inl rfl)
    refine ⟨rep, hmem, ?_⟩
    rw [heq, sourceKey_withScore]
    exact sourceKey_if_promote (hH rep hmem)
  | mean_max =>
    obtain ⟨rep, hmem, heq⟩ := promote_spec_mean hg (Or.inr rfl)
    refine ⟨rep, hmem, ?_⟩
    rw [heq, sourceKey_withScore]
    exact sourceKey_if_promote (hH rep hmem)

theorem promote_cons_of_min (metric : String) {a : Doc} {l : List Doc}
    (hmin : ∀ b ∈ l, scoreLE metric a b) (hgr : a.granularity = 0) :
    promote metric .min (a :: l) = a := by
  have hs : List.insertionSort (scoreLE metric) (a :: l)
      = a :: List.insertionSort (scoreLE metric) l :=
    List.insertionSort_cons _ hmin
  show (if 0 < (((List.insertionSort (scoreLE metric) (a :: l)).headD emptyDoc)).granularity
      then _ else _) = a
  rw [hs]
  simp [hgr]

theorem promote_cons_of_max (metric : String) {a : Doc} {l : List Doc}
    (hmax : ∀ b ∈ l, scoreGE metric a b) (hgr : a.granularity = 0) :
    promote metric .max (a :: l) = a := by
  have hs : List.insertionSort (scoreGE metric) (a :: l)
      = a :: List.insertionSort (scoreGE metric) l :=
    List.insertionSort_cons _ hmax
  show (if 0 < (((List.insertionSort (scoreGE metric) (a :: l)).headD emptyDoc)).granularity
      then _ else _) = a
  rw [hs]
  simp [hgr]

end SR

namespace SR

/-- The groups formed from a candidate pool: sort by source key, then take
maximal runs of equal key (the sort-then-groupby of lines 57-62). -/
def poolGroups (pool : List Doc) : List (List Doc) :=
  groupRuns sourceKey (List.insertionSort keyLE pool)

theorem aggregate_asc (metric : String) {rk : Ranking}
    (hrk : rk = .min ∨ rk = .mean_min) (pool : List Doc) :
    aggregate metric rk pool
      = List.insertionSort (scoreLE metric) ((poolGroups pool).map (promote metric rk)) := by
  rcases hrk with rfl | rfl <;> rfl

theorem aggregate_desc (metric : String) {rk : Ranking}
    (hrk : rk = .max ∨ rk = .mean_max) (pool : List Doc) :
    aggregate metric rk pool
      = List.insertionSort (scoreGE metric) ((poolGroups pool).map (promote metric rk)) := by
  rcases hrk with rfl | rfl <;> rfl

theorem rankDoc_matchList (metric : String) (rk : Ranking) (d : Doc) :
    (rankDoc metric rk d).matchList = aggregate metric rk (collectPool d) := by
  rw [rankDoc, withMatches_matchList]

theorem poolGroups_ne_nil {pool g : List Doc} (hg : g ∈ poolGroups pool) : g ≠ [] :=
  ne_nil_of_mem_groupRuns sourceKey hg

theorem mem_pool_of_mem_poolGroups {pool g : List Doc} {a : Doc}
    (hg : g ∈ poolGroups pool) (ha : a ∈ g) : a ∈ pool :=
  (List.mem_insertionSort keyLE).mp (mem_of_mem_groupRuns hg ha)

theorem poolGroups_key_eq {pool g : List Doc} {a b : Doc}
    (hg : g ∈ poolGroups pool) (ha : a ∈ g) (hb : b ∈ g) : sourceKey a = sourceKey b :=
  key_eq_of_mem_groupRuns hg ha hb

theorem poolGroups_sorted_keys (pool : List Doc) :
    (poolGroups pool).Pairwise
      (fun g h => ∀ a ∈ g, ∀ b ∈ h,
        sourceKey a ≠ sourceKey b ∧ strLe (sourceKey a) (sourceKey b)) :=
  groupRuns_pairwise (List.sorted_insertionSort keyLE pool)

theorem poolGroups_flatten_perm (pool : List Doc) :
    ((poolGroups pool).flatten).Perm pool := by
  rw [poolGroups, groupRuns_flatten]
  exact List.perm_insertionSort keyLE pool

theorem poolGroups_eq_filter {pool g : List Doc} {a : Doc}
    (hg : g ∈ poolGroups pool) (ha : a ∈ g) :
    g = pool.filter (fun b => sourceKey b == sourceKey a) := by
  have h1 : g = (List.insertionSort keyLE pool).filter
      (fun b => sourceKey b == sourceKey a) :=
    groupRuns_eq_filter (List.sorted_insertionSort keyLE pool) hg ha
  rw [h1]
  apply filter_insertionSort
  apply List.pairwise_of_forall_mem_list
  intro x hx y hy
  have hxk : sourceKey x = sourceKey a := by
    have := List.of_mem_filter hx
    simpa using this
  have hyk : sourceKey y = sourceKey a := by
    have := List.of_mem_filter hy
    simpa using this
  show strLe (sourceKey x) (sourceKey y)
  rw [hxk, hyk]
  exact strLe_refl _

theorem mem_aggregate_iff (metric : String) (rk : Ranking) (pool : List Doc) (m : Doc) :
    m ∈ aggregate metric rk pool ↔ ∃ g ∈ poolGroups pool, m = promote metric rk g := by
  have hmap : ∀ s : List Doc,
      (m ∈ (poolGroups pool).map (promote metric rk) ↔
        ∃ g ∈ poolGroups pool, m = promote metric rk g) := by
    intro _
    rw [List.mem_map]
    constructor
    · rintro ⟨g, hg, rfl⟩; exact ⟨g, hg, rfl⟩
    · rintro ⟨g, hg, rfl⟩; exact ⟨g, hg, rfl⟩
  cases rk with
  | min => rw [aggregate_asc metric (Or.inl rfl), List.mem_insertionSort]; exact hmap []
  | mean_min => rw [aggregate_asc metric (Or.inr rfl), List.mem_insertionSort]; exact hmap []
  | max => rw [aggregate_desc metric (Or.inl rfl), List.mem_insertionSort]; exact hmap []
  | mean_max => rw [aggregate_desc metric (Or.inr rfl), List.mem_insertionSort]; exact hmap []

theorem mem_selectDocs_rank {r : SimpleRanker} {docs : List Doc} {params : Option Selector}
    {d : Doc}
    (hd : d ∈ selectDocs (params.getD r.traversal_paths) (SimpleRanker.rank r docs params)) :
    ∃ d0, d = rankDoc r.metric r.ranking d0 := by
  rcases hsel : params.getD r.traversal_paths with _ | _
  · rw [SimpleRanker.rank, hsel] at hd
    simp only [selectDocs] at hd
    obtain ⟨d0, _, rfl⟩ := List.mem_map.mp hd
    exact ⟨d0, rfl⟩
  · rw [SimpleRanker.rank, hsel] at hd
    simp only [selectDocs, List.map_map] at hd
    obtain ⟨cl, hcl, hdc⟩ := List.mem_flatten.mp hd
    obtain ⟨d0, _, rfl⟩ := List.mem_map.mp hcl
    simp only [Function.comp_apply, withChunks_chunks] at hdc
    obtain ⟨c, _, rfl⟩ := List.mem_map.mp hdc
    exact ⟨c, rfl⟩

end SR

namespace SR

/-- A chunk-level match doc (granularity 1) pointing at parent `pid` with a
cosine score, mirroring the unit-test fixtures. -/
def exMatch (i pid : String) (v : ℚ) : Doc :=
  .mk i pid 1 [("t", "1")] [("cosine", ⟨v, ""⟩)] [] []

def exChunk1 : Doc :=
  .mk "c1" "d" 1 [] [] [] [exMatch "m1" "A" 3, exMatch "m2" "B" 1, exMatch "m3" "C" 2]

def exChunk2 : Doc :=
  .mk "c2" "d" 1 [] [] [] [exMatch "m4" "A" 1, exMatch "m5" "B" 4, exMatch "m6" "C" 5]

/-- Scenario A: one target document with two chunks, each matching the same
three parent documents with distinct cosine distances. -/
def exDocA : Doc := .mk "d" "" 0 [] [] [exChunk1, exChunk2] []

/-- The group of candidates with source key `A` in `exDocA`. -/
def exGroupA : List Doc := [exMatch "m1" "A" 3, exMatch "m4" "A" 1]

/-- C1: for every target document selected by the active traversal selector,
after `rank` the matches are ordered by the metric score, ascending for
policies `min` and `mean_min`, descending for `max` and `mean_max`. -/
theorem C1_matches_ordered (r : SimpleRanker) (docs : List Doc) (params : Option Selector)
    (d : Doc)
    (hd : d ∈ selectDocs (params.getD r.traversal_paths) (SimpleRanker.rank r docs params)) :
    ((r.ranking = Ranking.min ∨ r.ranking = Ranking.mean_min) →
      d.matchList.Pairwise (fun a b => scoreVal r.metric a ≤ scoreVal r.metric b)) ∧
    ((r.ranking = Ranking.max ∨ r.ranking = Ranking.mean_max) →
      d.matchList.Pairwise (fun a b => scoreVal r.metric b ≤ scoreVal r.metric a)) := by
  obtain ⟨d0, rfl⟩ := mem_selectDocs_rank hd
  rw [rankDoc_matchList]
  refine ⟨fun hrk => ?_, fun hrk => ?_⟩
  · rw [aggregate_asc r.metric hrk]
    exact List.sorted_insertionSort (scoreLE r.metric) _
  · rw [aggregate_desc r.metric hrk]
    exact List.sorted_insertionSort (scoreGE r.metric) _

/-- C1 witness: Scenario A under policy `min`, root selector. -/
theorem C1_witness :
    ((Ranking.min = Ranking.min ∨ Ranking.min = Ranking.mean_min) →
      (rankDoc "cosine" Ranking.min exDocA).matchList.Pairwise
        (fun a b => scoreVal "cosine" a ≤ scoreVal "cosine" b)) ∧
    ((Ranking.min = Ranking.max ∨ Ranking.min = Ranking.mean_max) →
      (rankDoc "cosine" Ranking.min exDocA).matchList.Pairwise
        (fun a b => scoreVal "cosine" b ≤ scoreVal "cosine" a)) :=
  C1_matches_ordered ⟨"cosine", Ranking.min, Selector.root⟩ [exDocA] none _
    (List.mem_cons_self _ _)

/-- C2: under the mean policies, the match produced for a group carries the
arithmetic mean of the group's metric scores, tagged with the policy name. -/
theorem C2_mean_score (metric : String) (rk : Ranking) (d : Doc) (g : List Doc)
    (hrk : rk = Ranking.mean_min ∨ rk = Ranking.mean_max)
    (hg : g ∈ poolGroups (collectPool d)) :
    promote metric rk g ∈ (rankDoc metric rk d).matchList ∧
      (promote metric rk g).lookupScore metric
        = ⟨((g.map (scoreVal metric)).sum) / (g.length : ℚ), rk.name⟩ := by
  refine ⟨?_, ?_⟩
  · rw [rankDoc_matchList]
    exact (mem_aggregate_iff metric rk (collectPool d) _).mpr ⟨g, hg, rfl⟩
  · obtain ⟨rep, hmem, heq⟩ := promote_spec_mean (poolGroups_ne_nil hg) hrk
    rw [heq, lookupScore_withScore]

/-- C2 witness: the key-`A` group of Scenario A under `mean_min`. -/
theorem C2_witness :
    promote "cosine" Ranking.mean_min exGroupA
        ∈ (rankDoc "cosine" Ranking.mean_min exDocA).matchList ∧
      (promote "cosine" Ranking.mean_min exGroupA).lookupScore "cosine"
        = ⟨((exGroupA.map (scoreVal "cosine")).sum) / (exGroupA.length : ℚ),
            Ranking.mean_min.name⟩ :=
  C2_mean_score "cosine" Ranking.mean_min exDocA exGroupA (Or.inl rfl)
    (List.mem_cons_self _ _)

/-- C3: under `min` the match produced for a group carries its
representative's original score entry, the minimum of the group; under `max`
the maximum. -/
theorem C3_extremum_score (metric : String) (d : Doc) (g : List Doc)
    (hg : g ∈ poolGroups (collectPool d)) :
    (promote metric Ranking.min g ∈ (rankDoc metric Ranking.min d).matchList ∧
      ∃ rep ∈ g, (promote metric Ranking.min g).lookupScore metric = rep.lookupScore metric ∧
        ∀ b ∈ g, scoreVal metric rep ≤ scoreVal metric b) ∧
    (promote metric Ranking.max g ∈ (rankDoc metric Ranking.max d).matchList ∧
      ∃ rep ∈ g, (promote metric Ranking.max g).lookupScore metric = rep.lookupScore metric ∧
        ∀ b ∈ g, scoreVal metric b ≤ scoreVal metric rep) := by
  have hne := poolGroups_ne_nil hg
  constructor
  · constructor
    · rw [rankDoc_matchList]
      exact (mem_aggregate_iff metric Ranking.min (collectPool d) _).mpr ⟨g, hg, rfl⟩
    · obtain ⟨rep, hmem, hmin, heq⟩ := promote_spec_min metric hne
      refine ⟨rep, hmem, ?_, hmin⟩
      rw [heq]
      by_cases h : 0 < rep.granularity
      · rw [if_pos h, lookupScore_promoteIdentity]
      · rw [if_neg h]
  · constructor
    · rw [rankDoc_matchList]
      exact (mem_aggregate_iff metric Ranking.max (collectPool d) _).mpr ⟨g, hg, rfl⟩
    · obtain ⟨rep, hmem, hmax, heq⟩ := promote_spec_max metric hne
      refine ⟨rep, hmem, ?_, hmax⟩
      rw [heq]
      by_cases h : 0 < rep.granularity
      · rw [if_pos h, lookupScore_promoteIdentity]
      · rw [if_neg h]

/-- C3 witness: the key-`A` group of Scenario A. -/
theorem C3_witness :
    (promote "cosine" Ranking.min exGroupA
        ∈ (rankDoc "cosine" Ranking.min exDocA).matchList ∧
      ∃ rep ∈ exGroupA,
        (promote "cosine" Ranking.min exGroupA).lookupScore "cosine"
            = rep.lookupScore "cosine" ∧
        ∀ b ∈ exGroupA, scoreVal "cosine" rep ≤ scoreVal "cosine" b) ∧
    (promote "cosine" Ranking.max exGroupA
        ∈ (rankDoc "cosine" Ranking.max exDocA).matchList ∧
      ∃ rep ∈ exGroupA,
        (promote "cosine" Ranking.max exGroupA).lookupScore "cosine"
            = rep.lookupScore "cosine" ∧
        ∀ b ∈ exGroupA, scoreVal "cosine" b ≤ scoreVal "cosine" rep) :=
  C3_extremum_score "cosine" exDocA exGroupA (List.mem_cons_self _ _)

/-- C6: construction succeeds exactly for the four accepted ranking strings;
in particular it fails for `median`.  The returned configuration stores the
parsed policy, so an invalid policy can never reach `rank`. -/
theorem C6_construction (metric : String) (sel : Selector) :
    mkSimpleRanker metric "median" sel = none ∧
    ∀ s : String, (∃ cfg, mkSimpleRanker metric s sel = some cfg) ↔
      s = "min" ∨ s = "max" ∨ s = "mean_min" ∨ s = "mean_max" := by
  constructor
  · rfl
  · intro s
    constructor
    · intro ⟨cfg, hcfg⟩
      by_cases h1 : s = "min"
      · exact Or.inl h1
      by_cases h2 : s = "max"
      · exact Or.inr (Or.inl h2)
      by_cases h3 : s = "mean_min"
      · exact Or.inr (Or.inr (Or.inl h3))
      by_cases h4 : s = "mean_max"
      · exact Or.inr (Or.inr (Or.inr h4))
      rw [mkSimpleRanker, parseRanking, if_neg h1, if_neg h2, if_neg h3, if_neg h4] at hcfg
      simp at hcfg
    · rintro (rfl | rfl | rfl | rfl) <;> exact ⟨_, rfl⟩

/-- C8: the candidate pool is exactly the document's own matches plus its
immediate chunks' matches; rewriting the chunks' own sub-trees (where all
deeper matches live) does not change the pool. -/
theorem C8_pool (d : Doc) :
    collectPool d = d.matchList ++ (d.chunks.map Doc.matchList).flatten ∧
      ∀ f : Doc → List Doc,
        collectPool (d.withChunks (d.chunks.map (fun c => c.withChunks (f c))))
          = collectPool d := by
  refine ⟨collectPool_eq d, fun f => ?_⟩
  rw [collectPool_eq, collectPool_eq]
  simp [List.map_map, Function.comp_def]

end SR

namespace SR

theorem headD_mem {α : Type} {l : List α} (h : l ≠ []) (x : α) : l.headD x ∈ l := by
  cases l with
  | nil => exact absurd rfl h
  | cons a t => exact List.mem_cons_self _ _

/-- The common source key of a (nonempty) group. -/
def groupKey (g : List Doc) : String := sourceKey (g.headD emptyDoc)

theorem poolGroups_key_eq_groupKey {p g : List Doc} {a : Doc}
    (hg : g ∈ poolGroups p) (ha : a ∈ g) : sourceKey a = groupKey g :=
  poolGroups_key_eq hg ha (headD_mem (poolGroups_ne_nil hg) emptyDoc)

theorem poolGroups_eq_filter_groupKey {p g : List Doc} (hg : g ∈ poolGroups p) :
    g = p.filter (fun b => sourceKey b == groupKey g) := by
  have h := poolGroups_eq_filter hg (headD_mem (poolGroups_ne_nil hg) emptyDoc)
  exact h

theorem poolGroups_keys_strict (p : List Doc) :
    ((poolGroups p).map groupKey).Pairwise (fun x y => strLe x y ∧ x ≠ y) := by
  rw [List.pairwise_map]
  refine (poolGroups_sorted_keys p).imp_of_mem ?_
  intro g h hgm hhm hrel
  have hr := hrel _ (headD_mem (poolGroups_ne_nil hgm) emptyDoc)
    _ (headD_mem (poolGroups_ne_nil hhm) emptyDoc)
  exact ⟨hr.2, hr.1⟩

theorem mem_poolGroups_keys {p : List Doc} {k : String} :
    k ∈ (poolGroups p).map groupKey ↔ ∃ a ∈ p, sourceKey a = k := by
  constructor
  · intro hk
    obtain ⟨g, hg, rfl⟩ := List.mem_map.mp hk
    refine ⟨g.headD emptyDoc,
      mem_pool_of_mem_poolGroups hg (headD_mem (poolGroups_ne_nil hg) emptyDoc), rfl⟩
  · rintro ⟨a, ha, rfl⟩
    have has : a ∈ List.insertionSort keyLE p := (List.mem_insertionSort keyLE).mpr ha
    have haf : a ∈ (poolGroups p).flatten := by
      rw [poolGroups, groupRuns_flatten]
      exact has
    obtain ⟨g, hg, hag⟩ := List.mem_flatten.mp haf
    exact List.mem_map.mpr ⟨g, hg, (poolGroups_key_eq_groupKey hg hag).symm⟩

theorem strict_sorted_eq : ∀ {K₁ K₂ : List String},
    K₁.Pairwise (fun x y => strLe x y ∧ x ≠ y) →
    K₂.Pairwise (fun x y => strLe x y ∧ x ≠ y) →
    (∀ k, k ∈ K₁ ↔ k ∈ K₂) → K₁ = K₂ := by
  intro K₁
  induction K₁ with
  | nil =>
    intro K₂ _ _ hmem
    cases K₂ with
    | nil => rfl
    | cons b t₂ => exact absurd ((hmem b).mpr (List.mem_cons_self _ _)) (by simp)
  | cons a t₁ ih =>
    intro K₂ h₁ h₂ hmem
    cases K₂ with
    | nil => exact absurd ((hmem a).mp (List.mem_cons_self _ _)) (by simp)
    | cons b t₂ =>
      have hab : a = b := by
        rcases List.mem_cons.mp ((hmem a).mp (List.mem_cons_self _ _)) with h | h
        · exact h
        · rcases List.mem_cons.mp ((hmem b).mpr (List.mem_cons_self _ _)) with h' | h'
          · exact h'.symm
          · have hba := List.rel_of_pairwise_cons h₂ h
            have hab' := List.rel_of_pairwise_cons h₁ h'
            exact absurd (strLe_antisymm hab'.1 hba.1) hab'.2
      subst hab
      have htails : ∀ k, k ∈ t₁ ↔ k ∈ t₂ := by
        intro k
        constructor
        · intro hk
          have hne := (List.rel_of_pairwise_cons h₁ hk).2
          rcases List.mem_cons.mp ((hmem k).mp (List.mem_cons_of_mem _ hk)) with h | h
          · exact absurd h.symm hne
          · exact h
        · intro hk
          have hne := (List.rel_of_pairwise_cons h₂ hk).2
          rcases List.mem_cons.mp ((hmem k).mpr (List.mem_cons_of_mem _ hk)) with h | h
          · exact absurd h.symm hne
          · exact h
      rw [ih h₁.of_cons h₂.of_cons htails]

theorem filter_eq_singleton_of_pairwise {β : Type} {key : β → String} :
    ∀ {K : List β}, K.Pairwise (fun x y => key x ≠ key y) →
      ∀ {g : β}, g ∈ K → K.filter (fun x => key x == key g) = [g] := by
  intro K
  induction K with
  | nil => intro _ g hg; simp at hg
  | cons a t ih =>
    intro hp g hg
    rcases List.mem_cons.mp hg with rfl | hgt
    · rw [List.filter_cons_of_pos (by simp)]
      have ht : t.filter (fun x => key x == key g) = [] := by
        rw [List.filter_eq_nil_iff]
        intro b hb
        simp only [beq_iff_eq]
        exact fun he => (List.rel_of_pairwise_cons hp hb) he.symm
      rw [ht]
    · have hne : key a ≠ key g := List.rel_of_pairwise_cons hp hgt
      rw [List.filter_cons_of_neg (by simp [hne])]
      exact ih hp.of_cons hgt

theorem scoreVal_if_promote (metric : String) (rep : Doc) :
    scoreVal metric (if 0 < rep.granularity then rep.promoteIdentity else rep)
      = scoreVal metric rep := by
  by_cases h : 0 < rep.granularity
  · rw [if_pos h]
    simp [scoreVal, lookupScore_promoteIdentity]
  · rw [if_neg h]

theorem groupKey_promote (metric : String) (rk : Ranking) {p g : List Doc}
    (hg : g ∈ poolGroups p)
    (hH : ∀ m ∈ p, 0 < m.granularity → m.parent_id ≠ "") :
    sourceKey (promote metric rk g) = groupKey g := by
  obtain ⟨rep, hmem, hkey⟩ := sourceKey_promote metric rk (poolGroups_ne_nil hg)
    (fun m hm => hH m (mem_pool_of_mem_poolGroups hg hm))
  rw [hkey]
  exact poolGroups_key_eq_groupKey hg hmem

end SR

namespace SR

theorem aggregate_append_self (metric : String) {rk : Ranking}
    (hrk : rk = Ranking.min ∨ rk = Ranking.max)
    (pool cm : List Doc) (hcm : ∀ m ∈ cm, m ∈ pool)
    (hH : ∀ m ∈ pool, 0 < m.granularity → m.parent_id ≠ "") :
    aggregate metric rk (aggregate metric rk pool ++ cm) = aggregate metric rk pool := by
  have hfin_perm : (aggregate metric rk pool).Perm
      ((poolGroups pool).map (promote metric rk)) := by
    rcases hrk with rfl | rfl
    · rw [aggregate_asc metric (Or.inl rfl)]
      exact List.perm_insertionSort _ _
    · rw [aggregate_desc metric (Or.inl rfl)]
      exact List.perm_insertionSort _ _
  have hkeyp : ∀ g ∈ poolGroups pool, sourceKey (promote metric rk g) = groupKey g :=
    fun g hg => groupKey_promote metric rk hg hH
  have hGne : (poolGroups pool).Pairwise (fun g h => groupKey g ≠ groupKey h) := by
    have hstrict := poolGroups_keys_strict pool
    rw [List.pairwise_map] at hstrict
    exact hstrict.imp (fun h => h.2)
  have hex : ∀ k : String,
      (∃ a ∈ aggregate metric rk pool ++ cm, sourceKey a = k) ↔
        ∃ a ∈ pool, sourceKey a = k := by
    intro k
    constructor
    · rintro ⟨a, ha, rfl⟩
      rcases List.mem_append.mp ha with haf | hacm
      · obtain ⟨g, hg, rfl⟩ := List.mem_map.mp (hfin_perm.mem_iff.mp haf)
        exact ⟨g.headD emptyDoc,
          mem_pool_of_mem_poolGroups hg (headD_mem (poolGroups_ne_nil hg) emptyDoc),
          (hkeyp g hg).symm⟩
      · exact ⟨a, hcm a hacm, rfl⟩
    · rintro ⟨a, ha, rfl⟩
      have haf : a ∈ (poolGroups pool).flatten := by
        rw [poolGroups, groupRuns_flatten]
        exact (List.mem_insertionSort keyLE).mpr ha
      obtain ⟨g, hg, hag⟩ := List.mem_flatten.mp haf
      refine ⟨promote metric rk g,
        List.mem_append.mpr (Or.inl (hfin_perm.mem_iff.mpr (List.mem_map.mpr ⟨g, hg, rfl⟩))),
        ?_⟩
      rw [hkeyp g hg, ← poolGroups_key_eq_groupKey hg hag]
  have hkeys2 : (poolGroups (aggregate metric rk pool ++ cm)).map groupKey
      = (poolGroups pool).map groupKey :=
    strict_sorted_eq (poolGroups_keys_strict _) (poolGroups_keys_strict pool)
      (fun k => mem_poolGroups_keys.trans ((hex k).trans mem_poolGroups_keys.symm))
  have hG2 : poolGroups (aggregate metric rk pool ++ cm)
      = ((poolGroups pool).map groupKey).map
          (fun k => (aggregate metric rk pool ++ cm).filter (fun b => sourceKey b == k)) := by
    rw [← hkeys2, List.map_map]
    conv_lhs => rw [← List.map_id (poolGroups (aggregate metric rk pool ++ cm))]
    exact List.map_congr_left (fun g hg => poolGroups_eq_filter_groupKey hg)
  have hgrp2 : ∀ g ∈ poolGroups pool,
      (aggregate metric rk pool ++ cm).filter (fun b => sourceKey b == groupKey g)
        = promote metric rk g :: cm.filter (fun b => sourceKey b == groupKey g) := by
    intro g hg
    rw [List.filter_append]
    have houtf : ((poolGroups pool).map (promote metric rk)).filter
        (fun b => sourceKey b == groupKey g) = [promote metric rk g] := by
      rw [List.filter_map]
      have hcongr : (poolGroups pool).filter
            ((fun b => sourceKey b == groupKey g) ∘ promote metric rk)
          = (poolGroups pool).filter (fun h => groupKey h == groupKey g) :=
        List.filter_congr (fun h hh => by simp [Function.comp, hkeyp h hh])
      rw [hcongr, filter_eq_singleton_of_pairwise hGne hg]
      rfl
    have hfinf : (aggregate metric rk pool).filter (fun b => sourceKey b == groupKey g)
        = [promote metric rk g] :=
      ((hfin_perm.filter _).trans (houtf ▸ List.Perm.refl _)).eq_singleton
    rw [hfinf]
    rfl
  have hsubg : ∀ g ∈ poolGroups pool,
      ∀ b ∈ cm.filter (fun b => sourceKey b == groupKey g), b ∈ g := by
    intro g hg b hb
    have hbcm := List.mem_of_mem_filter hb
    have hbk : sourceKey b = groupKey g := by
      have := List.of_mem_filter hb
      simpa using this
    rw [poolGroups_eq_filter_groupKey hg]
    exact List.mem_filter.mpr ⟨hcm b hbcm, by simp [hbk]⟩
  have hpro : ∀ g ∈ poolGroups pool,
      promote metric rk (promote metric rk g :: cm.filter (fun b => sourceKey b == groupKey g))
        = promote metric rk g := by
    intro g hg
    have hgr : (promote metric rk g).granularity = 0 := promote_granularity metric rk g
    rcases hrk with rfl | rfl
    · apply promote_cons_of_min
      · intro b hb
        obtain ⟨rep, hmem, hmin, heq⟩ := promote_spec_min metric (poolGroups_ne_nil hg)
        show scoreVal metric (promote metric Ranking.min g) ≤ scoreVal metric b
        rw [heq, scoreVal_if_promote]
        exact hmin b (hsubg g hg b hb)
      · exact hgr
    · apply promote_cons_of_max
      · intro b hb
        obtain ⟨rep, hmem, hmax, heq⟩ := promote_spec_max metric (poolGroups_ne_nil hg)
        show scoreVal metric b ≤ scoreVal metric (promote metric Ranking.max g)
        rw [heq, scoreVal_if_promote]
        exact hmax b (hsubg g hg b hb)
      · exact hgr
  have hout2 : (poolGroups (aggregate metric rk pool ++ cm)).map (promote metric rk)
      = (poolGroups pool).map (promote metric rk) := by
    rw [hG2, List.map_map, List.map_map]
    refine List.map_congr_left (fun g hg => ?_)
    show promote metric rk
        ((aggregate metric rk pool ++ cm).filter (fun b => sourceKey b == groupKey g))
      = promote metric rk g
    rw [hgrp2 g hg]
    exact hpro g hg
  rcases hrk with rfl | rfl
  · rw [aggregate_asc metric (Or.inl rfl) (aggregate metric Ranking.min pool ++ cm), hout2,
      ← aggregate_asc metric (Or.inl rfl)]
  · rw [aggregate_desc metric (Or.inl rfl) (aggregate metric Ranking.max pool ++ cm), hout2,
      ← aggregate_desc metric (Or.inl rfl)]

end SR

namespace SR

theorem withMatches_withMatches (d : Doc) (a b : List Doc) :
    (d.withMatches a).withMatches b = d.withMatches b := by cases d; rfl

theorem withChunks_withChunks (d : Doc) (a b : List Doc) :
    (d.withChunks a).withChunks b = d.withChunks b := by cases d; rfl

theorem rankDoc_idempotent (metric : String) {rk : Ranking}
    (hrk : rk = Ranking.min ∨ rk = Ranking.max) (d : Doc)
    (hH : ∀ m ∈ collectPool d, 0 < m.granularity → m.parent_id ≠ "") :
    rankDoc metric rk (rankDoc metric rk d) = rankDoc metric rk d := by
  have hpool : collectPool (rankDoc metric rk d)
      = aggregate metric rk (collectPool d) ++ (d.chunks.map Doc.matchList).flatten := by
    rw [collectPool_eq, rankDoc_matchList]
    rw [rankDoc, withMatches_chunks]
  have hcmsub : ∀ m ∈ (d.chunks.map Doc.matchList).flatten, m ∈ collectPool d := by
    intro m hm
    rw [collectPool_eq]
    exact List.mem_append.mpr (Or.inr hm)
  calc rankDoc metric rk (rankDoc metric rk d)
      = (rankDoc metric rk d).withMatches
          (aggregate metric rk (collectPool (rankDoc metric rk d))) := rfl
    _ = (rankDoc metric rk d).withMatches (aggregate metric rk (collectPool d)) := by
          rw [hpool, aggregate_append_self metric hrk _ _ hcmsub hH]
    _ = rankDoc metric rk d := by
          rw [rankDoc, withMatches_withMatches]

/-- C10 (amended): for the `min` and `max` policies, `rank` is idempotent on
documents whose candidates all carry the metric score, provided additionally
that every chunk-level candidate (granularity > 0) has a non-empty
`parent_id` (otherwise the promoted match's identity rewrite moves it to a
fresh source key and a second pass duplicates it). -/
theorem C10_idempotent (r : SimpleRanker) (docs : List Doc) (params : Option Selector)
    (hrk : r.ranking = Ranking.min ∨ r.ranking = Ranking.max)
    (hH : ∀ t ∈ selectDocs (params.getD r.traversal_paths) docs,
      ∀ m ∈ collectPool t, (m.scores.lookup r.metric).isSome ∧
        (0 < m.granularity → m.parent_id ≠ "")) :
    SimpleRanker.rank r (SimpleRanker.rank r docs params) params
      = SimpleRanker.rank r docs params := by
  rcases hsel : params.getD r.traversal_paths with _ | _
  · rw [hsel] at hH
    simp only [selectDocs] at hH
    simp only [SimpleRanker.rank, hsel]
    rw [List.map_map]
    refine List.map_congr_left (fun t ht => ?_)
    show rankDoc r.metric r.ranking (rankDoc r.metric r.ranking t)
        = rankDoc r.metric r.ranking t
    exact rankDoc_idempotent r.metric hrk t (fun m hm => (hH t ht m hm).2)
  · rw [hsel] at hH
    simp only [selectDocs] at hH
    simp only [SimpleRanker.rank, hsel]
    rw [List.map_map]
    refine List.map_congr_left (fun t ht => ?_)
    show ((t.withChunks (t.chunks.map (rankDoc r.metric r.ranking))).withChunks
        (((t.withChunks (t.chunks.map (rankDoc r.metric r.ranking))).chunks).map
          (rankDoc r.metric r.ranking)))
      = t.withChunks (t.chunks.map (rankDoc r.metric r.ranking))
    rw [withChunks_chunks, withChunks_withChunks, List.map_map]
    refine congrArg _ (List.map_congr_left (fun c hc => ?_))
    show rankDoc r.metric r.ranking (rankDoc r.metric r.ranking c)
        = rankDoc r.metric r.ranking c
    have hct : c ∈ (docs.map Doc.chunks).flatten :=
      List.mem_flatten.mpr ⟨t.chunks, List.mem_map.mpr ⟨t, ht, rfl⟩, hc⟩
    exact rankDoc_idempotent r.metric hrk c (fun m hm => (hH c hct m hm).2)

/-- Counterexample document for C10: a chunk-level candidate with an empty
`parent_id` (its own score is present). -/
def exC10doc : Doc :=
  .mk "d" "" 0 [] []
    [.mk "c" "d" 1 [] [] [] [.mk "a" "" 1 [] [("cosine", ⟨1, ""⟩)] [] []]] []

/-- C10 counterexample: one pass yields one match, a second pass yields two,
although every candidate carries the metric score. -/
theorem C10_counterexample :
    ((SimpleRanker.rank ⟨"cosine", Ranking.min, Selector.root⟩
        (SimpleRanker.rank ⟨"cosine", Ranking.min, Selector.root⟩ [exC10doc] none)
        none).map (fun d => d.matchList.length) = [2]) ∧
    ((SimpleRanker.rank ⟨"cosine", Ranking.min, Selector.root⟩ [exC10doc] none).map
        (fun d => d.matchList.length) = [1]) ∧
    (∀ m ∈ collectPool exC10doc, (m.scores.lookup "cosine").isSome) := by
  decide

/-- C10 witness: Scenario A is a fixed point of a second `rank` pass. -/
theorem C10_witness :
    SimpleRanker.rank ⟨"cosine", Ranking.min, Selector.root⟩
        (SimpleRanker.rank ⟨"cosine", Ranking.min, Selector.root⟩ [exDocA] none) none
      = SimpleRanker.rank ⟨"cosine", Ranking.min, Selector.root⟩ [exDocA] none :=
  C10_idempotent ⟨"cosine", Ranking.min, Selector.root⟩ [exDocA] none (Or.inl rfl)
    (by decide)

end SR

namespace SR

/-- C4 (amended): grouping by source key partitions the candidate pool:
the groups are nonempty, of constant key, with pairwise-disjoint keys, their
concatenation is a permutation of the pool, and every candidate belongs to
exactly one group.  Each group contributes exactly one output match (the
output is a permutation of the promoted groups).  Provided every candidate
with positive granularity has a non-empty `parent_id`, the output moreover
holds at most one match per source key; without that proviso the identity
rewrite can merge two groups onto the empty key. -/
theorem C4_grouping (metric : String) (rk : Ranking) (d : Doc) :
    ((poolGroups (collectPool d)).flatten.Perm (collectPool d) ∧
      (∀ g ∈ poolGroups (collectPool d), g ≠ [] ∧
        ∀ a ∈ g, ∀ b ∈ g, sourceKey a = sourceKey b) ∧
      (poolGroups (collectPool d)).Pairwise
        (fun g h => ∀ a ∈ g, ∀ b ∈ h, sourceKey a ≠ sourceKey b) ∧
      (∀ m ∈ collectPool d, ∃! g, g ∈ poolGroups (collectPool d) ∧ m ∈ g) ∧
      (rankDoc metric rk d).matchList.Perm
        ((poolGroups (collectPool d)).map (promote metric rk))) ∧
    ((∀ m ∈ collectPool d, 0 < m.granularity → m.parent_id ≠ "") →
      (rankDoc metric rk d).matchList.Pairwise
        (fun a b => sourceKey a ≠ sourceKey b)) := by
  have hdisj : (poolGroups (collectPool d)).Pairwise
      (fun g h => ∀ a ∈ g, ∀ b ∈ h, sourceKey a ≠ sourceKey b) :=
    (poolGroups_sorted_keys _).imp (fun h a ha b hb => (h a ha b hb).1)
  refine ⟨⟨poolGroups_flatten_perm _, ?_, hdisj, ?_, ?_⟩, ?_⟩
  · intro g hg
    exact ⟨poolGroups_ne_nil hg, fun a ha b hb => poolGroups_key_eq hg ha hb⟩
  · intro m hm
    have hmf : m ∈ (poolGroups (collectPool d)).flatten := by
      rw [poolGroups, groupRuns_flatten]
      exact (List.mem_insertionSort keyLE).mpr hm
    obtain ⟨g, hg, hmg⟩ := List.mem_flatten.mp hmf
    refine ⟨g, ⟨hg, hmg⟩, ?_⟩
    rintro g' ⟨hg', hmg'⟩
    by_contra hne
    have hsym : Symmetric
        (fun g h : List Doc => ∀ a ∈ g, ∀ b ∈ h, sourceKey a ≠ sourceKey b) :=
      fun g h hgh a ha b hb => (hgh b hb a ha).symm
    exact (hdisj.forall hsym hg' hg hne) m hmg' m hmg rfl
  · rw [rankDoc_matchList]
    rcases rk with _ | _ | _ | _
    · rw [aggregate_asc metric (Or.inl rfl)]
      exact List.perm_insertionSort _ _
    · rw [aggregate_desc metric (Or.inl rfl)]
      exact List.perm_insertionSort _ _
    · rw [aggregate_asc metric (Or.inr rfl)]
      exact List.perm_insertionSort _ _
    · rw [aggregate_desc metric (Or.inr rfl)]
      exact List.perm_insertionSort _ _
  · intro hH
    rw [rankDoc_matchList]
    have hout : ((poolGroups (collectPool d)).map (promote metric rk)).Pairwise
        (fun a b => sourceKey a ≠ sourceKey b) := by
      rw [List.pairwise_map]
      refine (poolGroups_sorted_keys (collectPool d)).imp_of_mem ?_
      intro g h hgm hhm hrel
      rw [groupKey_promote metric rk hgm hH, groupKey_promote metric rk hhm hH]
      exact (hrel _ (headD_mem (poolGroups_ne_nil hgm) emptyDoc)
        _ (headD_mem (poolGroups_ne_nil hhm) emptyDoc)).1
    rcases hrka : rk with _ | _ | _ | _
    · rw [aggregate_asc metric (Or.inl rfl)]
      exact ((List.perm_insertionSort (scoreLE metric) _).pairwise_iff
        (fun hab he => hab he.symm)).mpr (hrka ▸ hout)
    · rw [aggregate_desc metric (Or.inl rfl)]
      exact ((List.perm_insertionSort (scoreGE metric) _).pairwise_iff
        (fun hab he => hab he.symm)).mpr (hrka ▸ hout)
    · rw [aggregate_asc metric (Or.inr rfl)]
      exact ((List.perm_insertionSort (scoreLE metric) _).pairwise_iff
        (fun hab he => hab he.symm)).mpr (hrka ▸ hout)
    · rw [aggregate_desc metric (Or.inr rfl)]
      exact ((List.perm_insertionSort (scoreGE metric) _).pairwise_iff
        (fun hab he => hab he.symm)).mpr (hrka ▸ hout)

/-- Counterexample document for C4: two chunk-level own matches with empty
`parent_id` and distinct ids. -/
def exC4doc : Doc :=
  .mk "d" "" 0 [] [] []
    [.mk "a" "" 1 [] [("cosine", ⟨1, ""⟩)] [] [],
      .mk "b" "" 1 [] [("cosine", ⟨2, ""⟩)] [] []]

/-- C4 counterexample: the two candidates form two groups (keys `a` and `b`),
but both promoted matches end up with source key `""`, so the output has two
matches with the same source key. -/
theorem C4_counterexample :
    ¬ (rankDoc "cosine" Ranking.min exC4doc).matchList.Pairwise
        (fun a b => sourceKey a ≠ sourceKey b) := by
  decide

/-- C4 witness: Scenario A groups and deduplicates cleanly. -/
theorem C4_witness :
    (rankDoc "cosine" Ranking.min exDocA).matchList.Pairwise
      (fun a b => sourceKey a ≠ sourceKey b) :=
  (C4_grouping "cosine" Ranking.min exDocA).2 (by decide)

/-- C5 (amended): a candidate match lacking the configured metric never
aborts the call; docarray's defaultdict semantics silently reads the missing
score as value 0, which then participates in selection and aggregation. -/
theorem C5_missing_score (metric : String) (rk : Ranking) (d : Doc)
    (hall : ∀ m ∈ collectPool d, m.scores.lookup metric = none) :
    ∀ m ∈ (rankDoc metric rk d).matchList, (m.lookupScore metric).value = 0 := by
  intro m hm
  rw [rankDoc_matchList] at hm
  obtain ⟨g, hg, rfl⟩ := (mem_aggregate_iff metric rk (collectPool d) m).mp hm
  have hne := poolGroups_ne_nil hg
  have hzero : ∀ b ∈ g, scoreVal metric b = 0 := by
    intro b hb
    have := hall b (mem_pool_of_mem_poolGroups hg hb)
    simp [scoreVal, Doc.lookupScore, this]
  have hifz : ∀ rep ∈ g,
      (((if 0 < rep.granularity then rep.promoteIdentity else rep)).lookupScore
        metric).value = 0 := by
    intro rep hmem
    have hrepz : (rep.lookupScore metric).value = 0 := hzero rep hmem
    by_cases h : 0 < rep.granularity
    · rw [if_pos h, lookupScore_promoteIdentity]
      exact hrepz
    · rw [if_neg h]
      exact hrepz
  rcases hrk : rk with _ | _ | _ | _
  · obtain ⟨rep, hmem, _, heq⟩ := promote_spec_min metric hne
    rw [heq]
    exact hifz rep hmem
  · obtain ⟨rep, hmem, _, heq⟩ := promote_spec_max metric hne
    rw [heq]
    exact hifz rep hmem
  · obtain ⟨rep, hmem, heq⟩ := promote_spec_mean hne (Or.inl rfl)
    rw [heq, lookupScore_withScore]
    have hsum : (g.map (scoreVal metric)).sum = 0 :=
      List.sum_eq_zero (fun x hx => by
        obtain ⟨b, hb, rfl⟩ := List.mem_map.mp hx
        exact hzero b hb)
    simp [hsum]
  · obtain ⟨rep, hmem, heq⟩ := promote_spec_mean hne (Or.inr rfl)
    rw [heq, lookupScore_withScore]
    have hsum : (g.map (scoreVal metric)).sum = 0 :=
      List.sum_eq_zero (fun x hx => by
        obtain ⟨b, hb, rfl⟩ := List.mem_map.mp hx
        exact hzero b hb)
    simp [hsum]

/-- Counterexample document for C5: two candidates for parent `A`, one with
cosine 4 and one with no scores at all. -/
def exC5doc : Doc :=
  .mk "d" "" 0 [] [] []
    [.mk "x1" "A" 1 [] [("cosine", ⟨4, ""⟩)] [] [],
      .mk "x2" "A" 1 [] [] [] []]

/-- C5 counterexample: the call completes without error, and the candidate
lacking the metric wins the `min` selection with default value 0 — the
missing score is silently treated as zero, not rejected. -/
theorem C5_counterexample :
    (rankDoc "cosine" Ranking.min exC5doc).matchList.map
        (fun m => (m.lookupScore "cosine").value) = [0] ∧
      (rankDoc "cosine" Ranking.min exC5doc).matchList.length = 1 := by
  decide

/-- A document whose single candidate has no scores at all. -/
def exC5all : Doc := .mk "d" "" 0 [] [] [] [.mk "y" "B" 1 [] [] [] []]

/-- C5 witness for the amended statement. -/
theorem C5_witness :
    ((((rankDoc "cosine" Ranking.min exC5all).matchList.headD emptyDoc).lookupScore
      "cosine")).value = 0 :=
  C5_missing_score "cosine" Ranking.min exC5all (by decide) _
    (List.mem_cons_self _ _)

/-- C7 (amended): every output match has granularity 0; and it has an empty
`parent_id` provided every granularity-0 candidate in the pool has one (a
granularity-0 candidate's `parent_id` is copied through unchanged, while
chunk-level candidates are always rewritten). -/
theorem C7_promotion (metric : String) (rk : Ranking) (d : Doc) (m : Doc)
    (hm : m ∈ (rankDoc metric rk d).matchList) :
    m.granularity = 0 ∧
      ((∀ c ∈ collectPool d, c.granularity = 0 → c.parent_id = "") →
        m.parent_id = "") := by
  rw [rankDoc_matchList] at hm
  obtain ⟨g, hg, rfl⟩ := (mem_aggregate_iff metric rk (collectPool d) m).mp hm
  refine ⟨promote_granularity metric rk g, fun hc => ?_⟩
  have hne := poolGroups_ne_nil hg
  have hrepc : ∀ rep ∈ g,
      ((if 0 < rep.granularity then rep.promoteIdentity else rep)).parent_id = "" := by
    intro rep hmem
    by_cases h : 0 < rep.granularity
    · rw [if_pos h, promoteIdentity_parent_id]
    · rw [if_neg h]
      exact hc rep (mem_pool_of_mem_poolGroups hg hmem) (Nat.eq_zero_of_not_pos h)
  rcases hrk : rk with _ | _ | _ | _
  · obtain ⟨rep, hmem, _, heq⟩ := promote_spec_min metric hne
    rw [heq]; exact hrepc rep hmem
  · obtain ⟨rep, hmem, _, heq⟩ := promote_spec_max metric hne
    rw [heq]; exact hrepc rep hmem
  · obtain ⟨rep, hmem, heq⟩ := promote_spec_mean hne (Or.inl rfl)
    rw [heq, withScore_parent_id]; exact hrepc rep hmem
  · obtain ⟨rep, hmem, heq⟩ := promote_spec_mean hne (Or.inr rfl)
    rw [heq, withScore_parent_id]; exact hrepc rep hmem

/-- Counterexample document for C7: the document's own match already has
granularity 0 and a non-empty `parent_id`. -/
def exC7doc : Doc :=
  .mk "d" "" 0 [] [] [] [.mk "x" "p" 0 [] [("cosine", ⟨1, ""⟩)] [] []]

/-- C7 counterexample: the promoted match keeps `parent_id = "p"`, so not
every output match is free of `parent_id`. -/
theorem C7_counterexample :
    ¬ ∀ m ∈ (rankDoc "cosine" Ranking.min exC7doc).matchList,
        m.granularity = 0 ∧ m.parent_id = "" := by
  decide

/-- A clean single-candidate document for the C7 witness. -/
def exC7good : Doc := .mk "d" "" 0 [] [] [] [exMatch "m1" "A" 1]

/-- The match `rank` produces for `exC7good`. -/
def exC7out : Doc := .mk "A" "" 0 [("t", "1")] [("cosine", ⟨1, ""⟩)] [] []

/-- C7 witness. -/
theorem C7_witness :
    exC7out.granularity = 0 ∧
      ((∀ c ∈ collectPool exC7good, c.granularity = 0 → c.parent_id = "") →
        exC7out.parent_id = "") :=
  C7_promotion "cosine" Ranking.min exC7good exC7out (List.mem_cons_self _ _)

end SR

namespace SR

/-- Frame conditions of the value-level model of `rank`: under the root
selector every document keeps every field except `matches`; under the chunk
selector every root document keeps everything except its chunks' matches,
and each chunk keeps all other fields. -/
theorem rank_frame_fields (r : SimpleRanker) (docs : List Doc) (params : Option Selector) :
    (params.getD r.traversal_paths = Selector.root →
      List.Forall₂ (fun d d' => d'.id = d.id ∧ d'.parent_id = d.parent_id ∧
          d'.granularity = d.granularity ∧ d'.tags = d.tags ∧ d'.scores = d.scores ∧
          d'.chunks = d.chunks)
        docs (SimpleRanker.rank r docs params)) ∧
    (params.getD r.traversal_paths = Selector.chunk →
      List.Forall₂ (fun d d' => d'.id = d.id ∧ d'.parent_id = d.parent_id ∧
          d'.granularity = d.granularity ∧ d'.tags = d.tags ∧ d'.scores = d.scores ∧
          d'.matchList = d.matchList ∧
          List.Forall₂ (fun c c' => c'.id = c.id ∧ c'.parent_id = c.parent_id ∧
              c'.granularity = c.granularity ∧ c'.tags = c.tags ∧ c'.scores = c.scores ∧
              c'.chunks = c.chunks)
            d.chunks d'.chunks)
        docs (SimpleRanker.rank r docs params)) := by
  constructor
  · intro hsel
    simp only [SimpleRanker.rank, hsel]
    rw [List.forall₂_map_right_iff]
    apply List.forall₂_same.mpr
    intro d _
    rw [rankDoc]
    exact ⟨withMatches_id _ _, withMatches_parent_id _ _, withMatches_granularity _ _,
      withMatches_tags _ _, withMatches_scores _ _, withMatches_chunks _ _⟩
  · intro hsel
    simp only [SimpleRanker.rank, hsel]
    rw [List.forall₂_map_right_iff]
    apply List.forall₂_same.mpr
    intro d _
    refine ⟨withChunks_id _ _, withChunks_parent_id _ _, withChunks_granularity _ _,
      withChunks_tags _ _, withChunks_scores _ _, withChunks_matchList _ _, ?_⟩
    rw [withChunks_chunks, List.forall₂_map_right_iff]
    apply List.forall₂_same.mpr
    intro c _
    rw [rankDoc]
    exact ⟨withMatches_id _ _, withMatches_parent_id _ _, withMatches_granularity _ _,
      withMatches_tags _ _, withMatches_scores _ _, withMatches_chunks _ _⟩

end SR

namespace SR

theorem withMatches_self (d : Doc) : d.withMatches d.matchList = d := by cases d; rfl

theorem withChunks_self (d : Doc) : d.withChunks d.chunks = d := by cases d; rfl

/-- The observable side effect of reading `m.scores[metric]` on a docarray
document: a `defaultdict(NamedScore)` inserts a fresh default entry
(`value = 0.0`) into the mapping when the key is missing. -/
def touchScore (metric : String) (d : Doc) : Doc :=
  match d.scores.lookup metric with
  | some _ => d
  | none => d.withScore metric ⟨0, ""⟩

theorem touchScore_of_isSome {metric : String} {d : Doc}
    (h : (d.scores.lookup metric).isSome) : touchScore metric d = d := by
  rw [touchScore]
  obtain ⟨ns, hns⟩ := Option.isSome_iff_exists.mp h
  rw [hns]

/-- The per-target body of `rank` including the write-back on the chunks'
original match objects: the sort keys of lines 66/72 and the mean
comprehension of line 84 evaluate `m.scores[self.metric]` on every group
member, so every candidate still attached to a chunk gains a default
`NamedScore` entry when it lacks the metric.  (The document's own former
matches are detached by `doc.matches.clear()` before the reads, so their
mutation is unobservable in the tree; the promoted copies' score mappings
are modelled value-level as in `Doc.lookupScore`.) -/
def rankDocEff (metric : String) (rk : Ranking) (d : Doc) : Doc :=
  (d.withChunks (d.chunks.map (fun c =>
      c.withMatches (c.matchList.map (touchScore metric))))).withMatches
    (aggregate metric rk (collectPool d))

/-- `SimpleRanker.rank` with the score-read write-back on each target's
chunks made explicit. -/
def SimpleRanker.rankEff (r : SimpleRanker) (docs : List Doc)
    (params : Option Selector) : List Doc :=
  match params.getD r.traversal_paths with
  | .root => docs.map (rankDocEff r.metric r.ranking)
  | .chunk => docs.map fun d => d.withChunks (d.chunks.map (rankDocEff r.metric r.ranking))

theorem rankDocEff_eq_rankDoc (metric : String) (rk : Ranking) (d : Doc)
    (h : ∀ m ∈ collectPool d, (m.scores.lookup metric).isSome) :
    rankDocEff metric rk d = rankDoc metric rk d := by
  rw [rankDocEff, rankDoc]
  have hch : d.chunks.map (fun c => c.withMatches (c.matchList.map (touchScore metric)))
      = d.chunks := by
    conv_rhs => rw [← List.map_id d.chunks]
    refine List.map_congr_left (fun c hc => ?_)
    have hmm : c.matchList.map (touchScore metric) = c.matchList := by
      conv_rhs => rw [← List.map_id c.matchList]
      refine List.map_congr_left (fun m hm => ?_)
      refine touchScore_of_isSome (h m ?_)
      rw [collectPool_eq]
      exact List.mem_append.mpr (Or.inr (List.mem_flatten.mpr
        ⟨c.matchList, List.mem_map.mpr ⟨c, hc, rfl⟩, hm⟩))
    rw [hmm, withMatches_self]
    rfl
  rw [hch, withChunks_self]

theorem rankEff_eq_rank (r : SimpleRanker) (docs : List Doc) (params : Option Selector)
    (hscore : ∀ t ∈ selectDocs (params.getD r.traversal_paths) docs,
      ∀ m ∈ collectPool t, (m.scores.lookup r.metric).isSome) :
    SimpleRanker.rankEff r docs params = SimpleRanker.rank r docs params := by
  rcases hsel : params.getD r.traversal_paths with _ | _
  · rw [hsel] at hscore
    simp only [selectDocs] at hscore
    simp only [SimpleRanker.rankEff, SimpleRanker.rank, hsel]
    exact List.map_congr_left (fun t ht => rankDocEff_eq_rankDoc _ _ t (hscore t ht))
  · rw [hsel] at hscore
    simp only [selectDocs] at hscore
    simp only [SimpleRanker.rankEff, SimpleRanker.rank, hsel]
    refine List.map_congr_left (fun t ht => ?_)
    refine congrArg _ (List.map_congr_left (fun c hc => ?_))
    have hct : c ∈ (docs.map Doc.chunks).flatten :=
      List.mem_flatten.mpr ⟨t.chunks, List.mem_map.mpr ⟨t, ht, rfl⟩, hc⟩
    exact rankDocEff_eq_rankDoc _ _ c (hscore c hct)

/-- C9 (amended): provided every candidate match of every selected target
carries the configured metric key, the score reads insert nothing, the
effectful call coincides with the value-level one, and `rank` rewrites only
the targets' matches: under the root selector every document keeps every
field except `matches` (chunks, their matches and their scores untouched);
under the chunk selector every root document keeps everything except its
chunks' matches, and each chunk keeps all other fields.  Without the
proviso the sort-key reads of lines 66/72/84 insert a default `NamedScore`
into candidate matches still attached to chunks. -/
theorem C9_frame_cond (r : SimpleRanker) (docs : List Doc) (params : Option Selector)
    (hscore : ∀ t ∈ selectDocs (params.getD r.traversal_paths) docs,
      ∀ m ∈ collectPool t, (m.scores.lookup r.metric).isSome) :
    SimpleRanker.rankEff r docs params = SimpleRanker.rank r docs params ∧
    (params.getD r.traversal_paths = Selector.root →
      List.Forall₂ (fun d d' => d'.id = d.id ∧ d'.parent_id = d.parent_id ∧
          d'.granularity = d.granularity ∧ d'.tags = d.tags ∧ d'.scores = d.scores ∧
          d'.chunks = d.chunks)
        docs (SimpleRanker.rankEff r docs params)) ∧
    (params.getD r.traversal_paths = Selector.chunk →
      List.Forall₂ (fun d d' => d'.id = d.id ∧ d'.parent_id = d.parent_id ∧
          d'.granularity = d.granularity ∧ d'.tags = d.tags ∧ d'.scores = d.scores ∧
          d'.matchList = d.matchList ∧
          List.Forall₂ (fun c c' => c'.id = c.id ∧ c'.parent_id = c.parent_id ∧
              c'.granularity = c.granularity ∧ c'.tags = c.tags ∧ c'.scores = c.scores ∧
              c'.chunks = c.chunks)
            d.chunks d'.chunks)
        docs (SimpleRanker.rankEff r docs params)) := by
  have hEq := rankEff_eq_rank r docs params hscore
  refine ⟨hEq, fun hsel => ?_, fun hsel => ?_⟩
  · rw [hEq]
    exact (rank_frame_fields r docs params).1 hsel
  · rw [hEq]
    exact (rank_frame_fields r docs params).2 hsel

/-- Counterexample document for C9: a chunk whose single match has no
scores at all. -/
def exC9doc : Doc :=
  .mk "d" "" 0 [] [] [.mk "c" "d" 1 [] [] [] [.mk "a" "A" 1 [] [] [] []]] []

/-- C9 counterexample: after the call, the chunk's original match object has
gained a default `cosine` entry — `rank` does mutate scores on a chunk's
match when the metric is missing, refuting the unconditional frame claim. -/
theorem C9_counterexample :
    ((SimpleRanker.rankEff ⟨"cosine", Ranking.min, Selector.root⟩ [exC9doc] none).map
        (fun d => d.chunks.map (fun c => c.matchList.map Doc.scores)))
      = [[[[("cosine", ⟨0, ""⟩)]]]] ∧
    (([exC9doc] : List Doc).map
        (fun d => d.chunks.map (fun c => c.matchList.map Doc.scores)))
      = [[[[]]]] := by
  decide

/-- C9 witness: Scenario A carries every metric score, so the effectful call
collapses to the value-level one and the root-selector frame holds. -/
theorem C9_witness :
    (SimpleRanker.rankEff ⟨"cosine", Ranking.min, Selector.root⟩ [exDocA] none
        = SimpleRanker.rank ⟨"cosine", Ranking.min, Selector.root⟩ [exDocA] none) ∧
    List.Forall₂ (fun d d' => d'.id = d.id ∧ d'.parent_id = d.parent_id ∧
        d'.granularity = d.granularity ∧ d'.tags = d.tags ∧ d'.scores = d.scores ∧
        d'.chunks = d.chunks)
      [exDocA]
      (SimpleRanker.rankEff ⟨"cosine", Ranking.min, Selector.root⟩ [exDocA] none) :=
  ⟨(C9_frame_cond ⟨"cosine", Ranking.min, Selector.root⟩ [exDocA] none (by decide)).1,
    (C9_frame_cond ⟨"cosine", Ranking.min, Selector.root⟩ [exDocA] none
      (by decide)).2.1 rfl⟩

end SR
